import Mathlib

/-!
# argos: watch-to-command dispatch engine

A shallow embedding of `src/argos.c` and the properties of its
line splitter (`run_event`), event router (`handle_event`), event carving
loop and watch registration loop (`main`).

Conventions of the embedding:

* a byte is a `Nat`; a region of memory is the `List Nat` of the bytes that
  start at the base pointer, and a pointer into it is an offset;
* a `char *` value is an `Option String` (`none` is the null pointer);
* an external call whose result the program cannot know (the notification
  facility, `access`) is a function parameter;
* the calls a function makes are recorded in order in a trace.
-/

namespace Argos

/-! ## Part 1: the line splitter of `run_event` (argos.c, lines 169 to 177) -/

/-- The newline byte. -/
def NL : Nat := 10

/-- One call `print_output_line(line, len)`: `start` is the offset of the
pointer `line` from `buf`, `len` is the length argument. -/
structure OutputCall where
  start : Nat
  len : Nat
deriving DecidableEq

/-- The loop `while (line_start < buf + size) { ... }` of `run_event`.

`rest` is the memory that starts at `line_end` (so `*line_end++` takes its
head), `line_start` and `line_end` are offsets from `buf`, `calls` is the
trace of `print_output_line` calls made so far. The loop reads `*line_end`
without comparing `line_end` to `buf + size`; a read outside the modelled
memory has no defined result and is `none`. On exit the result carries the
trace and the final `line_end`: the bytes inspected are exactly those at the
offsets below it. -/
def scanLoop (size : Nat) (rest : List Nat) (line_start line_end : Nat)
    (calls : List OutputCall) : Option (List OutputCall × Nat) :=
  if line_start < size then
    match rest with
    | [] => none
    | c :: rest' =>
      if c ≠ NL then scanLoop size rest' line_start (line_end + 1) calls
      else if (line_end + 1) - line_start > 1 then
        scanLoop size rest' (line_end + 1) (line_end + 1)
          (calls ++ [⟨line_start, (line_end + 1) - line_start - 1⟩])
      else scanLoop size rest' (line_end + 1) (line_end + 1) calls
  else some (calls, line_end)

/-- The line splitting of `run_event` on the captured output: `mem` is the
memory starting at `buf` (the `size` captured bytes followed by whatever the
memory holds after them), and both cursors start at `buf`. -/
def run_event_split (mem : List Nat) (size : Nat) : Option (List OutputCall × Nat) :=
  scanLoop size mem 0 0 []

/-- The bytes a call `print_output_line(line, len)` is given: the `len`
bytes of memory at `line`. -/
def lineBytes (mem : List Nat) (c : OutputCall) : List Nat :=
  (mem.drop c.start).take c.len

/-- The bytes of a string literal. -/
def bytes (s : String) : List Nat := s.toList.map Char.toNat

/-- The buffer made of the given lines, each followed by a newline. -/
def joinLines : List (List Nat) → List Nat
  | [] => []
  | l :: ls => l ++ NL :: joinLines ls

/-- The calls expected for the lines `ls` laid out from offset `off`: one
call per non-empty line, at the offset of the line, with its length. -/
def expectedCalls : Nat → List (List Nat) → List OutputCall
  | _, [] => []
  | off, l :: ls =>
    if l = [] then expectedCalls (off + 1) ls
    else ⟨off, l.length⟩ :: expectedCalls (off + l.length + 1) ls

/-! ## Part 2: the event router `handle_event` (argos.c, lines 138 to 231) -/

/-! The event bits of Linux `<sys/inotify.h>`, which the program includes. -/

/-- File was accessed. -/
def IN_ACCESS : Nat := 0x00000001
/-- File was modified. -/
def IN_MODIFY : Nat := 0x00000002
/-- Metadata changed. -/
def IN_ATTRIB : Nat := 0x00000004
/-- Writable file was closed. -/
def IN_CLOSE_WRITE : Nat := 0x00000008
/-- Unwritable file was closed. -/
def IN_CLOSE_NOWRITE : Nat := 0x00000010
/-- File was opened. -/
def IN_OPEN : Nat := 0x00000020
/-- File was moved from here. -/
def IN_MOVED_FROM : Nat := 0x00000040
/-- File was moved to here. -/
def IN_MOVED_TO : Nat := 0x00000080
/-- Subfile was created. -/
def IN_CREATE : Nat := 0x00000100
/-- Subfile was deleted. -/
def IN_DELETE : Nat := 0x00000200
/-- Self was deleted. -/
def IN_DELETE_SELF : Nat := 0x00000400
/-- Self was moved. -/
def IN_MOVE_SELF : Nat := 0x00000800
/-- Backing file system was unmounted. -/
def IN_UNMOUNT : Nat := 0x00002000
/-- Event queue overflowed. -/
def IN_Q_OVERFLOW : Nat := 0x00004000
/-- Watch was removed. -/
def IN_IGNORED : Nat := 0x00008000
/-- Event occurred against a directory. -/
def IN_ISDIR : Nat := 0x40000000

/-- The fields of a `struct inotify_event`: `name` holds the `len` bytes of
the trailing name field. -/
structure InotifyEvent where
  wd : Int
  mask : Nat
  cookie : Nat
  len : Nat
  name : List Nat
deriving DecidableEq

/-- The C string that starts at the first byte of a name field: its bytes up
to the first NUL. The notification facility pads a name with NUL bytes inside
the field, so the string ends within the `len` bytes. -/
def cstr (b : List Nat) : String :=
  String.mk ((b.takeWhile (fun c => c ≠ 0)).map Char.ofNat)

/-- The process environment: the entries `(name, value)`. -/
abbrev Env := List (String × String)

/-- The value of an environment entry, as `getenv` returns it. -/
def getenv (env : Env) (k : String) : Option String :=
  (env.find? (fun e => e.1 = k)).map (fun e => e.2)

/-- The call `unsetenv(k)`. -/
def unsetenv (k : String) (env : Env) : Env := env.filter (fun e => e.1 ≠ k)

/-- The call `setenv(k, v, 1)`, which overwrites. -/
def setenv (k v : String) (env : Env) : Env := (k, v) :: unsetenv k env

/-- The eight command lists of `args_t`; a value of this type stands for the
pointer `&args.cmd_...` that `run_event` receives. -/
inductive Bucket where
  | cmd_all
  | cmd_access
  | cmd_modify
  | cmd_open
  | cmd_create
  | cmd_close
  | cmd_delete
  | cmd_attrib
deriving DecidableEq

/-- The global `args` (type `args_t`), without the flags that only choose an
output format. `files` is the memory at `args.files` read as an array of
`char *`: `files k` is the pointer stored at index `k`, also for an index
outside the `files_len` slots that were filled. A command list (`sll_t`) is
the list of its commands from the head; its `len` field is the length. -/
structure Args where
  files : Int → Option String
  files_len : Nat
  cmd_all : List String
  cmd_access : List String
  cmd_modify : List String
  cmd_open : List String
  cmd_create : List String
  cmd_close : List String
  cmd_delete : List String
  cmd_attrib : List String
  is_forced : Bool

/-- The command list a bucket pointer points to. -/
def Args.list (a : Args) : Bucket → List String
  | .cmd_all => a.cmd_all
  | .cmd_access => a.cmd_access
  | .cmd_modify => a.cmd_modify
  | .cmd_open => a.cmd_open
  | .cmd_create => a.cmd_create
  | .cmd_close => a.cmd_close
  | .cmd_delete => a.cmd_delete
  | .cmd_attrib => a.cmd_attrib

/-- One call `run_event(name, dir, file, commands)`. -/
structure Dispatch where
  name : String
  dir : Option String
  file : Option String
  commands : Bucket
deriving DecidableEq

/-- One call `popen(cmd, "r")`: the command, the list its node belongs to,
and the environment of the process at the time of the call, which the
spawned shell inherits. -/
structure Spawn where
  cmd : String
  list : Bucket
  env : Env
deriving DecidableEq

/-- The state of the process that the router acts on: its environment, the
trace of `run_event` calls and the trace of `popen` calls. -/
structure Proc where
  env : Env
  calls : List Dispatch
  spawns : List Spawn
deriving DecidableEq

/-- The loop `while (node) { ... popen(node->val) ... node = node->next; }`
of `run_event`: every command of the list is spawned, in list order, with the
environment as it stands. Whether `popen` succeeds, and the capture and line
splitting of the output (`run_event_split`), change neither the environment
nor the commands that follow. -/
def run_commands (b : Bucket) : List String → Proc → Proc
  | [], p => p
  | cmd :: rest, p => run_commands b rest { p with spawns := p.spawns ++ [⟨cmd, b, p.env⟩] }

/-- The function `run_event`: it sets `event` to `name`, then runs the
commands of the list. -/
def run_event (a : Args) (name : String) (dir file : Option String) (commands : Bucket)
    (p : Proc) : Proc :=
  run_commands commands (a.list commands)
    { p with env := setenv "event" name p.env,
             calls := p.calls ++ [⟨name, dir, file, commands⟩] }

/-- The statement `if (c) stmt;`. -/
def whenDo (c : Prop) [Decidable c] (stmt : Proc → Proc) (p : Proc) : Proc :=
  if c then stmt p else p

/-- The function `handle_event`. -/
def handle_event (a : Args) (i : InotifyEvent) (p : Proc) : Proc :=
  if i.mask = 0 then p else
  let dir : Option String := if i.len ≠ 0 then a.files (i.wd - 1) else none
  let file : Option String := if i.len ≠ 0 then some (cstr i.name) else a.files (i.wd - 1)
  let p : Proc := { p with env := match file with
                                  | some f => setenv "file" f p.env
                                  | none => unsetenv "file" p.env }
  let p : Proc := { p with env := match dir with
                                  | some d => setenv "dir" d p.env
                                  | none => unsetenv "dir" p.env }
  let p : Proc :=
    if a.cmd_all.length ≠ 0 then
      p |> whenDo (i.mask &&& IN_ACCESS ≠ 0) (run_event a "ACCESS" dir file .cmd_all)
        |> whenDo (i.mask &&& IN_ATTRIB ≠ 0) (run_event a "ATTRIB" dir file .cmd_all)
        |> whenDo (i.mask &&& IN_CLOSE_NOWRITE ≠ 0)
            (run_event a "CLOSE_NOWRITE" dir file .cmd_all)
        |> whenDo (i.mask &&& IN_CLOSE_WRITE ≠ 0) (run_event a "CLOSE_WRITE" dir file .cmd_all)
        |> whenDo (i.mask &&& IN_CREATE ≠ 0) (run_event a "CREATE" dir file .cmd_all)
        |> whenDo (i.mask &&& IN_DELETE ≠ 0) (run_event a "DELETE" dir file .cmd_all)
        |> whenDo (i.mask &&& IN_DELETE_SELF ≠ 0) (run_event a "DELETE_SELF" dir file .cmd_all)
        |> whenDo (i.mask &&& IN_IGNORED ≠ 0) (run_event a "IGNORED" dir file .cmd_all)
        |> whenDo (i.mask &&& IN_ISDIR ≠ 0) (run_event a "ISDIR" dir file .cmd_all)
        |> whenDo (i.mask &&& IN_MODIFY ≠ 0) (run_event a "MODIFY" dir file .cmd_all)
        |> whenDo (i.mask &&& IN_MOVE_SELF ≠ 0) (run_event a "MOVE_SELF" dir file .cmd_all)
        |> whenDo (i.mask &&& IN_MOVED_FROM ≠ 0) (run_event a "MOVED_FROM" dir file .cmd_all)
        |> whenDo (i.mask &&& IN_MOVED_TO ≠ 0) (run_event a "MOVED_TO" dir file .cmd_all)
        |> whenDo (i.mask &&& IN_OPEN ≠ 0) (run_event a "OPEN" dir file .cmd_all)
        |> whenDo (i.mask &&& IN_Q_OVERFLOW ≠ 0) (run_event a "Q_OVERFLOW" dir file .cmd_all)
        |> whenDo (i.mask &&& IN_UNMOUNT ≠ 0) (run_event a "UNMOUNT" dir file .cmd_all)
    else p
  p |> whenDo (a.cmd_access.length ≠ 0 ∧ i.mask &&& IN_ACCESS ≠ 0)
        (run_event a "ACCESS" dir file .cmd_access)
    |> whenDo (a.cmd_modify.length ≠ 0 ∧ i.mask &&& IN_MODIFY ≠ 0)
        (run_event a "MODIFY" dir file .cmd_modify)
    |> whenDo (a.cmd_close.length ≠ 0 ∧
          (i.mask &&& IN_CLOSE_NOWRITE ≠ 0 ∨ i.mask &&& IN_CLOSE_WRITE ≠ 0))
        (run_event a "CLOSE" dir file .cmd_close)
    |> whenDo (a.cmd_open.length ≠ 0 ∧ i.mask &&& IN_OPEN ≠ 0)
        (run_event a "OPEN" dir file .cmd_open)
    |> whenDo (a.cmd_create.length ≠ 0 ∧ i.mask &&& IN_CREATE ≠ 0)
        (run_event a "CREATE" dir file .cmd_create)
    |> whenDo (a.cmd_delete.length ≠ 0 ∧ i.mask &&& IN_DELETE ≠ 0)
        (run_event a "DELETE" dir file .cmd_delete)
    |> whenDo (a.cmd_attrib.length ≠ 0 ∧ i.mask &&& IN_ATTRIB ≠ 0)
        (run_event a "ATTRIB" dir file .cmd_attrib)

/-! ### The routing the specification describes -/

/-- The directory of the dispatch context of an event. -/
def eventDir (a : Args) (i : InotifyEvent) : Option String :=
  if i.len ≠ 0 then a.files (i.wd - 1) else none

/-- The file of the dispatch context of an event. -/
def eventFile (a : Args) (i : InotifyEvent) : Option String :=
  if i.len ≠ 0 then some (cstr i.name) else a.files (i.wd - 1)

/-- The environment once `file` and `dir` are set or unset for an event. -/
def eventEnv (a : Args) (i : InotifyEvent) (env : Env) : Env :=
  let env1 := match eventFile a i with
    | some f => setenv "file" f env
    | none => unsetenv "file" env
  match eventDir a i with
  | some d => setenv "dir" d env1
  | none => unsetenv "dir" env1

/-- The sixteen known event kinds, bit and label, in the order in which the
catch-all list is tried on them. -/
def kinds : List (Nat × String) :=
  [(IN_ACCESS, "ACCESS"), (IN_ATTRIB, "ATTRIB"), (IN_CLOSE_NOWRITE, "CLOSE_NOWRITE"),
   (IN_CLOSE_WRITE, "CLOSE_WRITE"), (IN_CREATE, "CREATE"), (IN_DELETE, "DELETE"),
   (IN_DELETE_SELF, "DELETE_SELF"), (IN_IGNORED, "IGNORED"), (IN_ISDIR, "ISDIR"),
   (IN_MODIFY, "MODIFY"), (IN_MOVE_SELF, "MOVE_SELF"), (IN_MOVED_FROM, "MOVED_FROM"),
   (IN_MOVED_TO, "MOVED_TO"), (IN_OPEN, "OPEN"), (IN_Q_OVERFLOW, "Q_OVERFLOW"),
   (IN_UNMOUNT, "UNMOUNT")]

/-- The sixteen event-kind labels. -/
def eventLabels : List String :=
  ["ACCESS", "ATTRIB", "CLOSE_NOWRITE", "CLOSE_WRITE", "CREATE", "DELETE", "DELETE_SELF",
   "IGNORED", "ISDIR", "MODIFY", "MOVE_SELF", "MOVED_FROM", "MOVED_TO", "OPEN", "Q_OVERFLOW",
   "UNMOUNT"]

/-- The bit positions of the sixteen known kinds, in the order of `kinds`. -/
def kindBits : List Nat := [0, 2, 4, 3, 8, 9, 10, 15, 30, 1, 11, 6, 7, 5, 14, 13]

/-- The mask with the bits of all sixteen known kinds. -/
def IN_KNOWN : Nat :=
  IN_ACCESS ||| IN_ATTRIB ||| IN_CLOSE_NOWRITE ||| IN_CLOSE_WRITE ||| IN_CREATE ||| IN_DELETE
    ||| IN_DELETE_SELF ||| IN_IGNORED ||| IN_ISDIR ||| IN_MODIFY ||| IN_MOVE_SELF
    ||| IN_MOVED_FROM ||| IN_MOVED_TO ||| IN_OPEN ||| IN_Q_OVERFLOW ||| IN_UNMOUNT

/-- The number of bits of a 32-bit mask that are set and belong to a known
kind. -/
def knownBitsSet (mask : Nat) : Nat :=
  (List.range 32).countP (fun b => mask.testBit b && IN_KNOWN.testBit b)

/-- The catch-all dispatches the specification describes: when the catch-all
list is non-empty, one per known kind whose bit is set, with that label. -/
def catchAllCalls (a : Args) (i : InotifyEvent) : List Dispatch :=
  if a.cmd_all.length ≠ 0 then
    (kinds.filter (fun k => decide (i.mask &&& k.1 ≠ 0))).map
      (fun k => ⟨k.2, eventDir a i, eventFile a i, .cmd_all⟩)
  else []

/-- The seven typed buckets, in the order in which they are tried. -/
def typedOrder : List Bucket :=
  [.cmd_access, .cmd_modify, .cmd_close, .cmd_open, .cmd_create, .cmd_delete, .cmd_attrib]

/-- Whether a mask contains the kind of a typed bucket; the CLOSE bucket
takes either close kind. -/
def bucketHit (mask : Nat) : Bucket → Bool
  | .cmd_all => false
  | .cmd_access => decide (mask &&& IN_ACCESS ≠ 0)
  | .cmd_modify => decide (mask &&& IN_MODIFY ≠ 0)
  | .cmd_open => decide (mask &&& IN_OPEN ≠ 0)
  | .cmd_create => decide (mask &&& IN_CREATE ≠ 0)
  | .cmd_close => decide (mask &&& IN_CLOSE_NOWRITE ≠ 0) || decide (mask &&& IN_CLOSE_WRITE ≠ 0)
  | .cmd_delete => decide (mask &&& IN_DELETE ≠ 0)
  | .cmd_attrib => decide (mask &&& IN_ATTRIB ≠ 0)

/-- The canonical name of a bucket. -/
def bucketLabel : Bucket → String
  | .cmd_all => "ALL"
  | .cmd_access => "ACCESS"
  | .cmd_modify => "MODIFY"
  | .cmd_open => "OPEN"
  | .cmd_create => "CREATE"
  | .cmd_close => "CLOSE"
  | .cmd_delete => "DELETE"
  | .cmd_attrib => "ATTRIB"

/-- The typed dispatches the specification describes: one per typed bucket
whose list is non-empty and whose kind is in the mask, with the canonical
name of the bucket. -/
def typedCalls (a : Args) (i : InotifyEvent) : List Dispatch :=
  (typedOrder.filter (fun b => decide ((a.list b).length ≠ 0) && bucketHit i.mask b)).map
    (fun b => ⟨bucketLabel b, eventDir a i, eventFile a i, b⟩)

/-- The spawns of one dispatch made when the environment, `event` apart, is
`e1`. -/
def spawnsOf (a : Args) (e1 : Env) (d : Dispatch) : List Spawn :=
  (a.list d.commands).map (fun c => ⟨c, d.commands, setenv "event" d.name e1⟩)

/-! ## Part 3: the carving loop of `main` (argos.c, lines 316 to 321) -/

/-- The value of `sizeof(struct inotify_event)`: four 32-bit fields. -/
def HEADER : Nat := 16

/-- The 32-bit value of four bytes, least significant first. -/
def le32 (b0 b1 b2 b3 : Nat) : Nat := b0 + 256 * b1 + 65536 * b2 + 16777216 * b3

/-- The `int` with the given 32-bit pattern. -/
def toInt32 (u : Nat) : Int := if u < 2147483648 then (u : Int) else (u : Int) - 4294967296

/-- The cast `(struct inotify_event *) ptr`: the record whose header is the
sixteen bytes at offset `ptr` of the buffer (`wd`, `mask`, `cookie`, `len`),
followed by `len` bytes of name. There is no record where the memory holds
fewer than sixteen bytes. -/
def eventAt (mem : List Nat) (ptr : Nat) : Option InotifyEvent :=
  match mem.drop ptr with
  | w0 :: w1 :: w2 :: w3 :: m0 :: m1 :: m2 :: m3 :: c0 :: c1 :: c2 :: c3
      :: l0 :: l1 :: l2 :: l3 :: name =>
    some { wd := toInt32 (le32 w0 w1 w2 w3), mask := le32 m0 m1 m2 m3,
           cookie := le32 c0 c1 c2 c3, len := le32 l0 l1 l2 l3,
           name := name.take (le32 l0 l1 l2 l3) }
  | _ => none

/-- The result of carving one buffer: the state of the process, the trace of
`handle_event` calls (offset of the record and the record), and the final
cursor `ptr` as an offset from `buf`. -/
structure Carved where
  proc : Proc
  handled : List (Nat × InotifyEvent)
  ptr : Nat
deriving DecidableEq

/-- The loop `for (ptr = buf; ptr < buf + num_read; ) { ... }` of `main`,
from the cursor `ptr` on. -/
def carveLoop (a : Args) (mem : List Nat) (num_read : Nat) (ptr : Nat) (p : Proc)
    (handled : List (Nat × InotifyEvent)) : Option Carved :=
  if _h : ptr < num_read then
    match eventAt mem ptr with
    | none => none
    | some event =>
      carveLoop a mem num_read (ptr + (HEADER + event.len)) (handle_event a event p)
        (handled ++ [(ptr, event)])
  else some ⟨p, handled, ptr⟩
termination_by num_read - ptr
decreasing_by
  simp only [HEADER]
  omega

/-- The carving of the buffer filled by one `read`: `mem` is the memory of
`buf`, of which the first `num_read` bytes were read. -/
def carve (a : Args) (mem : List Nat) (num_read : Nat) (p : Proc) : Option Carved :=
  carveLoop a mem num_read 0 p []

/-- The four bytes of a 32-bit value, least significant first. -/
def encode32 (u : Nat) : List Nat :=
  [u % 256, u / 256 % 256, u / 65536 % 256, u / 16777216 % 256]

/-- The bytes of a record: the header, then the name field. -/
def encode (r : InotifyEvent) : List Nat :=
  encode32 (r.wd % 4294967296).toNat ++ encode32 r.mask ++ encode32 r.cookie
    ++ encode32 r.len ++ r.name

/-- The concatenation of the bytes of the records. -/
def encodeAll : List InotifyEvent → List Nat
  | [] => []
  | r :: rs => encode r ++ encodeAll rs

/-- A well-formed record: every header field fits its 32 bits and the name
field has the declared length. -/
def InotifyEvent.wf (r : InotifyEvent) : Prop :=
  -2147483648 ≤ r.wd ∧ r.wd < 2147483648 ∧ r.mask < 4294967296 ∧ r.cookie < 4294967296 ∧
    r.len < 4294967296 ∧ r.name.length = r.len

instance (r : InotifyEvent) : Decidable r.wf := by
  unfold InotifyEvent.wf
  infer_instance

/-- The records with their offsets when laid out from `off`, each taking the
header size plus its declared name length. -/
def layout : Nat → List InotifyEvent → List (Nat × InotifyEvent)
  | _, [] => []
  | off, r :: rs => (off, r) :: layout (off + (HEADER + r.len)) rs

/-! ## Part 4: the registration loop of `main` (argos.c, lines 291 to 304) -/

/-- One call of `inotify_add_watch`: the loop index, the path, and the watch
descriptor returned. -/
structure Watch where
  index : Nat
  path : String
  wd : Int
deriving DecidableEq

/-- The fatal errors of the registration loop, with the loop index: the
`error` calls for `access`, for a zero descriptor, and for a descriptor that
is not the index plus one. -/
inductive Fatal where
  | access (i : Nat)
  | add_watch (i : Nat)
  | invalid_wd (i : Nat)
deriving DecidableEq

/-- The results of the system calls of the registration loop, by loop index
and path: `access(file, F_OK)` and `inotify_add_watch(inotify_fd, file,
IN_ALL_EVENTS)`. -/
structure Facility where
  access : Nat → String → Int
  inotify_add_watch : Nat → String → Int

/-- The outcome of the registration loop: the calls of `inotify_add_watch`
made, in order, and the fatal error the loop ended in, if any. -/
structure Registered where
  watches : List Watch
  fatal : Option Fatal
deriving DecidableEq

/-- The conversion of an `int` to `size_t` (64 bits). -/
def toSizeT (x : Int) : Nat := (x % 18446744073709551616).toNat

/-- The loop `for (size_t i = 0; i < args.files_len; i++) { ... }` of `main`,
from index `i` on with `remaining = files_len - i` iterations left. In
`wd != i + 1` the `int` is converted to `size_t`. -/
def regLoop (a : Args) (sys : Facility) : Nat → Nat → List Watch → Registered
  | 0, _, watches => ⟨watches, none⟩
  | remaining + 1, i, watches =>
    match a.files i with
    | none => regLoop a sys remaining (i + 1) watches
    | some file =>
      if !a.is_forced && sys.access i file ≠ 0 then ⟨watches, some (.access i)⟩
      else
        let wd := sys.inotify_add_watch i file
        let watches := watches ++ [⟨i, file, wd⟩]
        if wd = 0 then ⟨watches, some (.add_watch i)⟩
        else if toSizeT wd ≠ (i + 1) % 18446744073709551616 then
          ⟨watches, some (.invalid_wd i)⟩
        else regLoop a sys remaining (i + 1) watches

/-- The registration loop of `main`. -/
def register_watches (a : Args) (sys : Facility) : Registered :=
  regLoop a sys a.files_len 0 []

/-- A recorded call whose descriptor is the index plus one and whose path is
the one stored at its index. -/
def Watch.good (a : Args) (w : Watch) : Prop :=
  w.wd = (w.index : Int) + 1 ∧ a.files w.index = some w.path

/-! ## Concrete inputs -/

/-- The memory of a file array that holds the given pointers, and null
pointers elsewhere. -/
def filesOf (l : List (Option String)) : Int → Option String :=
  fun k => if 0 ≤ k then (l.get? k.toNat).join else none

/-- The arguments with the given paths and no command. -/
def noCmds (paths : List String) : Args :=
  { files := filesOf (paths.map some), files_len := paths.length, cmd_all := [],
    cmd_access := [], cmd_modify := [], cmd_open := [], cmd_create := [], cmd_close := [],
    cmd_delete := [], cmd_attrib := [], is_forced := false }

/-- A process with an empty environment and empty traces. -/
def proc0 : Proc := ⟨[], [], []⟩

/-- The name field of a record for the child `x.txt`, padded with NUL bytes
to sixteen bytes. -/
def nameXtxt : List Nat := [120, 46, 116, 120, 116, 0, 0, 0, 0, 0, 0, 0, 0, 0, 0, 0]

/-- The watch of the plain file `/tmp/f` with one MODIFY command. -/
def argsModify : Args := { noCmds ["/tmp/f"] with cmd_modify := ["echo hi"] }

/-- A MODIFY event on watch 1 with no name. -/
def eventModify : InotifyEvent := ⟨1, IN_MODIFY, 0, 0, []⟩

/-- The watch of the directory `/tmp/dir` with one CREATE command. -/
def argsCreate : Args := { noCmds ["/tmp/dir"] with cmd_create := ["ls $dir"] }

/-- A CREATE event on watch 1 for the child `x.txt`. -/
def eventCreate : InotifyEvent := ⟨1, IN_CREATE, 0, 16, nameXtxt⟩

/-- The watch of `/tmp/f` with a catch-all command and a CLOSE command. -/
def argsAllClose : Args := { noCmds ["/tmp/f"] with cmd_all := ["date"], cmd_close := ["sync"] }

/-- An event on watch 1 with exactly the CLOSE_NOWRITE and ISDIR bits. -/
def eventCloseDir : InotifyEvent := ⟨1, IN_CLOSE_NOWRITE ||| IN_ISDIR, 0, 0, []⟩

/-- An event on watch 1 with both close bits. -/
def eventCloseBoth : InotifyEvent := ⟨1, IN_CLOSE_NOWRITE ||| IN_CLOSE_WRITE, 0, 0, []⟩

/-- The watch of `/tmp/f` with one CLOSE command only. -/
def argsClose : Args := { noCmds ["/tmp/f"] with cmd_close := ["sync"] }

/-- A CLOSE_WRITE event on watch 1 with no name. -/
def eventCloseWrite : InotifyEvent := ⟨1, IN_CLOSE_WRITE, 0, 0, []⟩

/-- A record with a zero mask and a name field of four arbitrary bytes. -/
def eventZero : InotifyEvent := ⟨1, 0, 0, 4, [255, 10, 0, 7]⟩

/-- Two watched paths, both present, in strict mode. -/
def argsTwo : Args := noCmds ["/tmp/a", "/tmp/b"]

/-- A facility where every path is accessible and the descriptors are handed
out in sequence from 1. -/
def sysSequential : Facility := ⟨fun _ _ => 0, fun i _ => if i < 2 then (i : Int) + 1 else 0⟩

theorem scanLoop_line (size : Nat) (l r : List Nat) (hl : NL ∉ l) (s e : Nat)
    (calls : List OutputCall) (hs : s < size) (hse : s ≤ e) :
    scanLoop size (l ++ NL :: r) s e calls =
      scanLoop size r (e + l.length + 1) (e + l.length + 1)
        (if e + l.length + 1 - s > 1 then
          calls ++ [⟨s, e + l.length + 1 - s - 1⟩] else calls) := by
  induction l generalizing e with
  | nil =>
    rw [List.nil_append, scanLoop]
    simp only [hs, if_true, ne_eq, not_true_eq_false, if_false, List.length_nil, Nat.add_zero]
    split <;> rfl
  | cons c l ih =>
    have hc : c ≠ NL := fun h => hl (by simp [h])
    have hl' : NL ∉ l := fun h => hl (List.mem_cons_of_mem _ h)
    rw [List.cons_append, scanLoop]
    simp only [hs, if_true, hc, ne_eq, not_false_eq_true]
    rw [ih hl' (e + 1) (by omega)]
    simp only [List.length_cons]
    have : e + 1 + l.length + 1 = e + (l.length + 1) + 1 := by omega
    rw [this]

theorem scanLoop_joinLines (ls : List (List Nat)) (hls : ∀ l ∈ ls, NL ∉ l)
    (tail : List Nat) (off : Nat) (calls : List OutputCall) :
    scanLoop (off + (joinLines ls).length) (joinLines ls ++ tail) off off calls =
      some (calls ++ expectedCalls off ls, off + (joinLines ls).length) := by
  induction ls generalizing off calls with
  | nil =>
    rw [scanLoop.eq_def]
    simp [joinLines, expectedCalls]
  | cons l ls ih =>
    have hl : NL ∉ l := hls l (List.mem_cons_self _ _)
    have hls' : ∀ l ∈ ls, NL ∉ l := fun x hx => hls x (List.mem_cons_of_mem _ hx)
    have hlen : (joinLines (l :: ls)).length = l.length + 1 + (joinLines ls).length := by
      simp [joinLines]; omega
    have happ : joinLines (l :: ls) ++ tail = l ++ NL :: (joinLines ls ++ tail) := by
      simp [joinLines]
    rw [happ, scanLoop_line _ l _ hl off off calls (by omega) (Nat.le_refl _)]
    have hsz : off + (joinLines (l :: ls)).length
        = (off + l.length + 1) + (joinLines ls).length := by omega
    rw [hsz, ih hls' (off + l.length + 1)]
    by_cases hnil : l = []
    · subst hnil
      simp [expectedCalls]
    · have hpos : 0 < l.length := List.length_pos.mpr hnil
      have h1 : off + l.length + 1 - off > 1 := by omega
      have h2 : off + l.length + 1 - off - 1 = l.length := by omega
      simp only [h1, if_true, h2, expectedCalls, hnil, if_false, List.append_assoc,
        List.singleton_append]

theorem lineBytes_expectedCalls (pre : List Nat) (ls : List (List Nat)) (tail : List Nat) :
    (expectedCalls pre.length ls).map (lineBytes (pre ++ (joinLines ls ++ tail)))
      = ls.filter (fun l => decide (l ≠ [])) := by
  induction ls generalizing pre with
  | nil => simp [expectedCalls]
  | cons l ls ih =>
    have hmem : pre ++ (joinLines (l :: ls) ++ tail)
        = (pre ++ l ++ [NL]) ++ (joinLines ls ++ tail) := by
      simp [joinLines]
    by_cases hnil : l = []
    · subst hnil
      have h := ih (pre ++ [NL])
      simp only [List.length_append, List.length_singleton] at h
      simp only [expectedCalls, if_true, hmem, List.append_nil]
      rw [h]
      simp
    · have h := ih (pre ++ l ++ [NL])
      simp only [List.length_append, List.length_singleton] at h
      simp only [expectedCalls, hnil, if_false, List.map_cons]
      rw [List.filter_cons_of_pos (by simpa using hnil)]
      congr 1
      · simp [lineBytes, joinLines]
      · rw [hmem, h]

theorem joinLines_exists (buf : List Nat) (h : buf = [] ∨ buf.getLast? = some NL) :
    ∃ ls : List (List Nat), (∀ l ∈ ls, NL ∉ l) ∧ joinLines ls = buf := by
  induction buf with
  | nil => exact ⟨[], by simp, rfl⟩
  | cons c buf ih =>
    have hlast : (c :: buf).getLast? = some NL := by
      rcases h with h | h
      · exact absurd h (List.cons_ne_nil _ _)
      · exact h
    cases buf with
    | nil =>
      have hc : c = NL := by simpa using hlast
      exact ⟨[[]], by simp, by simp [joinLines, hc]⟩
    | cons d buf =>
      have hlast' : (d :: buf).getLast? = some NL := by
        simpa [List.getLast?_cons_cons] using hlast
      obtain ⟨ls, hls, hj⟩ := ih (Or.inr hlast')
      cases ls with
      | nil => simp [joinLines] at hj
      | cons l ls =>
        by_cases hc : c = NL
        · refine ⟨[] :: l :: ls, ?_, ?_⟩
          · intro x hx
            rcases List.mem_cons.mp hx with hx | hx
            · subst hx; simp
            · exact hls x hx
          · simp only [joinLines, List.nil_append, hc] at hj ⊢
            rw [hj]
        · refine ⟨(c :: l) :: ls, ?_, ?_⟩
          · intro x hx
            rcases List.mem_cons.mp hx with hx | hx
            · subst hx
              intro hmem
              rcases List.mem_cons.mp hmem with hm | hm
              · exact hc hm.symm
              · exact hls l (List.mem_cons_self _ _) hm
            · exact hls x (List.mem_cons_of_mem _ hx)
          · simp only [joinLines, List.cons_append] at hj ⊢
            rw [hj]

theorem joinLines_inj (ls ls' : List (List Nat)) (hls : ∀ l ∈ ls, NL ∉ l)
    (hls' : ∀ l ∈ ls', NL ∉ l) (h : joinLines ls = joinLines ls') : ls = ls' := by
  induction ls generalizing ls' with
  | nil =>
    cases ls' with
    | nil => rfl
    | cons l' ls' => simp [joinLines] at h
  | cons l ls ih =>
    cases ls' with
    | nil => simp [joinLines] at h
    | cons l' ls' =>
      have hl : NL ∉ l := hls l (List.mem_cons_self _ _)
      have hl' : NL ∉ l' := hls' l' (List.mem_cons_self _ _)
      simp only [joinLines] at h
      have key : ∀ (a b : List Nat) (r r' : List Nat), NL ∉ a → NL ∉ b →
          a ++ NL :: r = b ++ NL :: r' → a = b ∧ r = r' := by
        intro a
        induction a with
        | nil =>
          intro b r r' _ hb hab
          cases b with
          | nil => simpa using hab
          | cons y b =>
            simp only [List.nil_append, List.cons_append, List.cons.injEq] at hab
            exact absurd (by simp [hab.1]) hb
        | cons x a iha =>
          intro b r r' ha hb hab
          cases b with
          | nil =>
            simp only [List.nil_append, List.cons_append, List.cons.injEq] at hab
            exact absurd (by simp [hab.1]) ha
          | cons y b =>
            simp only [List.cons_append, List.cons.injEq] at hab
            obtain ⟨h1, h2⟩ := iha b r r' (fun hm => ha (List.mem_cons_of_mem _ hm))
              (fun hm => hb (List.mem_cons_of_mem _ hm)) hab.2
            exact ⟨by rw [hab.1, h1], h2⟩
      obtain ⟨h1, h2⟩ := key l l' _ _ hl hl' h
      rw [h1, ih ls' (fun x hx => hls x (List.mem_cons_of_mem _ hx))
        (fun x hx => hls' x (List.mem_cons_of_mem _ hx)) h2]


/-! ### Lemmas on the event router -/

theorem run_commands_eq (b : Bucket) (cmds : List String) (p : Proc) :
    run_commands b cmds p
      = { p with spawns := p.spawns ++ cmds.map (fun c => ⟨c, b, p.env⟩) } := by
  induction cmds generalizing p with
  | nil => simp [run_commands]
  | cons c cs ih => simp [run_commands, ih]

theorem unsetenv_setenv (k v : String) (e : Env) : unsetenv k (setenv k v e) = unsetenv k e := by
  simp [setenv, unsetenv, List.filter_filter]

theorem setenv_congr (k v : String) (e e' : Env) (h : unsetenv k e = unsetenv k e') :
    setenv k v e = setenv k v e' := by
  simp [setenv, h]

theorem getenv_setenv (k v : String) (e : Env) : getenv (setenv k v e) k = some v := by
  simp [getenv, setenv]

theorem filter_map_cons_sel {α β : Type} (f : α → Bool) (g : α → β) (x : α) (xs : List α) :
    ((x :: xs).filter f).map g = (if f x = true then [g x] else []) ++ (xs.filter f).map g := by
  by_cases h : f x = true <;> simp [h]

theorem flatMap_sel {α β : Type} (c : Prop) [Decidable c] (d : α) (f : α → List β) :
    (if c then [d] else []).flatMap f = if c then f d else [] := by
  by_cases h : c <;> simp [h]

theorem calls_step (a : Args) (c : Prop) [Decidable c] (n : String) (dir file : Option String)
    (b : Bucket) (q : Proc) :
    (whenDo c (run_event a n dir file b) q).calls
      = q.calls ++ if c then [⟨n, dir, file, b⟩] else [] := by
  by_cases hc : c <;> simp [whenDo, hc, run_event, run_commands_eq]

theorem spawns_step (a : Args) (c : Prop) [Decidable c] (n : String) (dir file : Option String)
    (b : Bucket) (q : Proc) :
    (whenDo c (run_event a n dir file b) q).spawns
      = q.spawns ++ if c then
          spawnsOf a (unsetenv "event" q.env) ⟨n, dir, file, b⟩ else [] := by
  by_cases hc : c <;>
    simp [whenDo, hc, run_event, run_commands_eq, spawnsOf, setenv, unsetenv, List.filter_filter]

theorem env_step (a : Args) (c : Prop) [Decidable c] (n : String) (dir file : Option String)
    (b : Bucket) (q : Proc) :
    unsetenv "event" (whenDo c (run_event a n dir file b) q).env = unsetenv "event" q.env := by
  by_cases hc : c <;> simp [whenDo, hc, run_event, run_commands_eq, unsetenv_setenv]

theorem spawnsOf_unsetenv (a : Args) (e : Env) (d : Dispatch) :
    spawnsOf a (unsetenv "event" e) d = spawnsOf a e d := by
  simp [spawnsOf, setenv, unsetenv, List.filter_filter]

theorem handle_event_calls (a : Args) (i : InotifyEvent) (p : Proc) (hmask : i.mask ≠ 0) :
    (handle_event a i p).calls = p.calls ++ (catchAllCalls a i ++ typedCalls a i) := by
  unfold handle_event
  rw [if_neg hmask]
  by_cases hall : a.cmd_all.length ≠ 0
  · simp only [if_pos hall, calls_step,
      catchAllCalls, typedCalls, kinds, typedOrder,
      filter_map_cons_sel, List.filter_nil, List.map_nil, List.nil_append, List.append_nil,
      List.append_assoc, Args.list, bucketHit, eventDir, eventFile, Bool.and_eq_true,
      Bool.or_eq_true, decide_eq_true_eq]
    rfl
  · simp only [if_neg hall, calls_step,
      catchAllCalls, typedCalls, kinds, typedOrder,
      filter_map_cons_sel, List.filter_nil, List.map_nil, List.nil_append, List.append_nil,
      List.append_assoc, Args.list, bucketHit, eventDir, eventFile, Bool.and_eq_true,
      Bool.or_eq_true, decide_eq_true_eq]
    rfl

theorem handle_event_spawns (a : Args) (i : InotifyEvent) (p : Proc) (hmask : i.mask ≠ 0) :
    (handle_event a i p).spawns = p.spawns ++
      (catchAllCalls a i ++ typedCalls a i).flatMap (spawnsOf a (eventEnv a i p.env)) := by
  unfold handle_event
  rw [if_neg hmask]
  by_cases hall : a.cmd_all.length ≠ 0
  · simp only [if_pos hall, spawns_step, env_step, spawnsOf_unsetenv,
      catchAllCalls, typedCalls, kinds, typedOrder, List.flatMap_append, flatMap_sel,
      List.flatMap_nil,
      filter_map_cons_sel, List.filter_nil, List.map_nil, List.nil_append, List.append_nil,
      List.append_assoc, Args.list, bucketHit, eventDir, eventFile, eventEnv, Bool.and_eq_true,
      Bool.or_eq_true, decide_eq_true_eq]
    rfl
  · simp only [if_neg hall, spawns_step, env_step, spawnsOf_unsetenv,
      catchAllCalls, typedCalls, kinds, typedOrder, List.flatMap_append, flatMap_sel,
      List.flatMap_nil,
      filter_map_cons_sel, List.filter_nil, List.map_nil, List.nil_append, List.append_nil,
      List.append_assoc, Args.list, bucketHit, eventDir, eventFile, eventEnv, Bool.and_eq_true,
      Bool.or_eq_true, decide_eq_true_eq]
    rfl

/-! ### Lemmas on the carving loop -/

theorem le32_encode32 (u : Nat) (h : u < 4294967296) :
    le32 (u % 256) (u / 256 % 256) (u / 65536 % 256) (u / 16777216 % 256) = u := by
  unfold le32
  omega

theorem toInt32_wd (wd : Int) (h1 : -2147483648 ≤ wd) (h2 : wd < 2147483648) :
    toInt32 (wd % 4294967296).toNat = wd := by
  unfold toInt32
  split <;> omega

theorem encode_length (r : InotifyEvent) (h : r.wf) : (encode r).length = HEADER + r.len := by
  obtain ⟨_, _, _, _, _, h6⟩ := h
  simp [encode, encode32, HEADER, h6]
  omega

theorem eventAt_encode (pre : List Nat) (r : InotifyEvent) (h : r.wf) (rest : List Nat) :
    eventAt (pre ++ (encode r ++ rest)) pre.length = some r := by
  obtain ⟨h1, h2, h3, h4, h5, h6⟩ := h
  have hu : (r.wd % 4294967296).toNat < 4294967296 := by omega
  unfold eventAt
  rw [List.drop_left]
  simp only [encode, encode32, List.cons_append, List.nil_append, List.append_assoc]
  rw [le32_encode32 _ hu, le32_encode32 _ h3, le32_encode32 _ h4, le32_encode32 _ h5,
    toInt32_wd _ h1 h2, ← h6, List.take_left, h6]

theorem carveLoop_encodeAll (a : Args) (rs : List InotifyEvent) (hwf : ∀ r ∈ rs, r.wf)
    (pre tail : List Nat) (p : Proc) (log : List (Nat × InotifyEvent)) :
    carveLoop a (pre ++ (encodeAll rs ++ tail)) (pre.length + (encodeAll rs).length)
        pre.length p log
      = some ⟨rs.foldl (fun q r => handle_event a r q) p, log ++ layout pre.length rs,
          pre.length + (encodeAll rs).length⟩ := by
  induction rs generalizing pre p log with
  | nil =>
    rw [carveLoop]
    simp [encodeAll, layout]
  | cons r rs ih =>
    have hr : r.wf := hwf r (List.mem_cons_self _ _)
    have hrs : ∀ x ∈ rs, x.wf := fun x hx => hwf x (List.mem_cons_of_mem _ hx)
    have hlen := encode_length r hr
    have hlt : pre.length < pre.length + (encodeAll (r :: rs)).length := by
      simp only [encodeAll, List.length_append, hlen, HEADER]
      omega
    have hmem : pre ++ (encodeAll (r :: rs) ++ tail) = pre ++ (encode r ++ (encodeAll rs ++ tail)) := by
      simp [encodeAll]
    have hmem2 : pre ++ (encode r ++ (encodeAll rs ++ tail))
        = (pre ++ encode r) ++ (encodeAll rs ++ tail) := by simp
    rw [carveLoop, dif_pos hlt, hmem, eventAt_encode pre r hr]
    simp only
    have h := ih hrs (pre ++ encode r) (handle_event a r p) (log ++ [(pre.length, r)])
    simp only [List.length_append, hlen] at h
    have e1 : pre.length + (encodeAll (r :: rs)).length
        = pre.length + (HEADER + r.len) + (encodeAll rs).length := by
      simp only [encodeAll, List.length_append, hlen]
      omega
    rw [e1, hmem2, h]
    simp [layout]

theorem encodeAll_length (rs : List InotifyEvent) (hwf : ∀ r ∈ rs, r.wf) :
    (encodeAll rs).length = (rs.map (fun r => HEADER + r.len)).sum := by
  induction rs with
  | nil => rfl
  | cons r rs ih =>
    simp only [encodeAll, List.length_append, List.map_cons, List.sum_cons,
      encode_length r (hwf r (List.mem_cons_self _ _)),
      ih (fun x hx => hwf x (List.mem_cons_of_mem _ hx))]

theorem handle_event_zero (a : Args) (i : InotifyEvent) (p : Proc) (h : i.mask = 0) :
    handle_event a i p = p := by
  unfold handle_event
  rw [if_pos h]

theorem layout_snd (off : Nat) (rs : List InotifyEvent) :
    (layout off rs).map Prod.snd = rs := by
  induction rs generalizing off with
  | nil => rfl
  | cons r rs ih => simp [layout, ih]


/-! ### Lemmas on the registration loop -/

theorem toSizeT_eq (wd : Int) (i : Nat) (h1 : -2147483648 ≤ wd) (h2 : wd < 2147483648)
    (hi : i + 1 < 2147483648) (h : toSizeT wd = (i + 1) % 18446744073709551616) :
    wd = (i : Int) + 1 := by
  unfold toSizeT at h
  omega

theorem regLoop_ok (a : Args) (sys : Facility) (n i : Nat) (tr : List Watch)
    (hsmall : i + n < 2147483648)
    (hnn : ∀ j : Nat, i ≤ j → j < i + n → a.files j ≠ none)
    (hint : ∀ (j : Nat) (f : String), j < i + n →
      -2147483648 ≤ sys.inotify_add_watch j f ∧ sys.inotify_add_watch j f < 2147483648)
    (hgood : ∀ w ∈ tr, w.good a) (hidx : tr.map (fun w => w.index) = List.range i)
    (hok : (regLoop a sys n i tr).fatal = none) :
    (∀ w ∈ (regLoop a sys n i tr).watches, w.good a) ∧
      (regLoop a sys n i tr).watches.map (fun w => w.index) = List.range (i + n) := by
  induction n generalizing i tr with
  | zero => exact ⟨by simpa [regLoop] using hgood, by simpa [regLoop] using hidx⟩
  | succ n ih =>
    have hfile := hnn i (Nat.le_refl _) (by omega)
    obtain ⟨file, hf⟩ := Option.ne_none_iff_exists'.mp hfile
    have hr := hint i file (by omega)
    rw [regLoop] at hok ⊢
    simp only [hf] at hok ⊢
    split at hok
    · simp at hok
    · split at hok
      · simp at hok
      · split at hok
        · simp at hok
        · rename_i h1 h2 h3
          rw [if_neg h1, if_neg h2, if_neg h3]
          have hwd : sys.inotify_add_watch i file = (i : Int) + 1 :=
            toSizeT_eq _ i hr.1 hr.2 (by omega) (by simpa using h3)
          have hi : i + 1 + n = i + (n + 1) := by omega
          rw [← hi]
          apply ih (i + 1) _ (by omega)
          · intro j h1 h2
            exact hnn j (by omega) (by omega)
          · intro j f h1
            exact hint j f (by omega)
          · intro w hw
            rcases List.mem_append.mp hw with hw | hw
            · exact hgood w hw
            · rw [List.mem_singleton.mp hw]
              exact ⟨hwd, hf⟩
          · simp [hidx, List.range_succ]
          · exact hok

theorem regLoop_bad (a : Args) (sys : Facility) (n i : Nat) (tr : List Watch)
    (hsmall : i + n < 2147483648)
    (hint : ∀ (j : Nat) (f : String), j < i + n →
      -2147483648 ≤ sys.inotify_add_watch j f ∧ sys.inotify_add_watch j f < 2147483648)
    (hgood : ∀ w ∈ tr, w.wd = (w.index : Int) + 1) :
    ∀ w ∈ (regLoop a sys n i tr).watches, w.wd ≠ (w.index : Int) + 1 →
      ((regLoop a sys n i tr).fatal = some (.add_watch w.index) ∨
        (regLoop a sys n i tr).fatal = some (.invalid_wd w.index)) ∧
      (regLoop a sys n i tr).watches.getLast? = some w := by
  induction n generalizing i tr with
  | zero =>
    intro w hw hbad
    exact absurd (hgood w (by simpa [regLoop] using hw)) hbad
  | succ n ih =>
    rw [regLoop]
    split
    · exact ih (i + 1) tr (by omega) (fun j f h => hint j f (by omega)) hgood
    · rename_i file hf
      have hr := hint i file (by omega)
      split
      · intro w hw hbad
        exact absurd (hgood w hw) hbad
      · have hlast : ∀ w ∈ tr ++ [(⟨i, file, sys.inotify_add_watch i file⟩ : Watch)],
            w.wd ≠ (w.index : Int) + 1 → w = ⟨i, file, sys.inotify_add_watch i file⟩ := by
          intro w hw hbad
          rcases List.mem_append.mp hw with hw | hw
          · exact absurd (hgood w hw) hbad
          · exact List.mem_singleton.mp hw
        simp only
        split
        · intro w hw hbad
          rw [hlast w hw hbad]
          exact ⟨Or.inl rfl, by simp⟩
        · split
          · intro w hw hbad
            rw [hlast w hw hbad]
            exact ⟨Or.inr rfl, by simp⟩
          · rename_i h1 h2 h3
            have hwd : sys.inotify_add_watch i file = (i : Int) + 1 :=
              toSizeT_eq _ i hr.1 hr.2 (by omega) (by simpa using h3)
            apply ih (i + 1) _ (by omega) (fun j f h => hint j f (by omega))
            intro w hw
            rcases List.mem_append.mp hw with hw | hw
            · exact hgood w hw
            · rw [List.mem_singleton.mp hw]
              exact hwd

theorem expectedCalls_len (off : Nat) (ls : List (List Nat)) :
    (expectedCalls off ls).map (fun c => c.len)
      = (ls.filter (fun l => decide (l ≠ []))).map List.length := by
  induction ls generalizing off with
  | nil => simp [expectedCalls]
  | cons l ls ih =>
    by_cases hnil : l = []
    · subst hnil
      simp [expectedCalls, ih]
    · simp [expectedCalls, hnil, ih]

theorem scanLoop_exit (size : Nat) (rest pre : List Nat) (s e : Nat) (calls : List OutputCall)
    (out : List OutputCall) (fin : Nat) (hpre : pre.length = e) (hs : s < size)
    (h : scanLoop size rest s e calls = some (out, fin)) :
    size ≤ fin ∧ e < fin ∧ (pre ++ rest)[fin - 1]? = some NL := by
  induction rest generalizing pre s e calls with
  | nil =>
    rw [scanLoop] at h
    simp [hs] at h
  | cons c rest ih =>
    have hmem : pre ++ c :: rest = (pre ++ [c]) ++ rest := by simp
    have hexit : ∀ cs : List OutputCall,
        scanLoop size rest (e + 1) (e + 1) cs = some (out, fin) →
        c = NL → size ≤ fin ∧ e < fin ∧ (pre ++ c :: rest)[fin - 1]? = some NL := by
      intro cs hcs hc
      by_cases hlt : e + 1 < size
      · obtain ⟨h1, h2, h3⟩ := ih (pre ++ [c]) (e + 1) (e + 1) cs (by simp [hpre]) hlt hcs
        exact ⟨h1, by omega, by rw [hmem]; exact h3⟩
      · rw [scanLoop.eq_def, if_neg hlt] at hcs
        have hfin : fin = e + 1 := by
          have := (Option.some.inj hcs)
          exact (congrArg Prod.snd this).symm
        subst hfin
        refine ⟨by omega, by omega, ?_⟩
        subst hpre
        rw [Nat.add_sub_cancel, List.getElem?_append_right (Nat.le_refl _), Nat.sub_self]
        simp [hc]
    rw [scanLoop] at h
    simp only [hs, if_true] at h
    split at h
    · obtain ⟨h1, h2, h3⟩ := ih (pre ++ [c]) s (e + 1) calls (by simp [hpre]) hs h
      exact ⟨h1, by omega, by rw [hmem]; exact h3⟩
    · rename_i hc
      have hc' : c = NL := by simpa using hc
      split at h
      · exact hexit _ h hc'
      · exact hexit _ h hc'

theorem run_event_split_overreads (buf tail : List Nat) (hne : buf ≠ [])
    (hlast : buf.getLast? ≠ some NL) (out : List OutputCall) (fin : Nat)
    (h : run_event_split (buf ++ tail) buf.length = some (out, fin)) :
    buf.length < fin := by
  have hpos : 0 < buf.length := List.length_pos.mpr hne
  obtain ⟨h1, _, h3⟩ := scanLoop_exit buf.length (buf ++ tail) [] 0 0 [] out fin rfl hpos h
  rcases Nat.lt_or_ge buf.length fin with hlt | hge
  · exact hlt
  · exfalso
    have hfin : fin = buf.length := by omega
    subst hfin
    apply hlast
    rw [List.getLast?_eq_getElem?]
    simpa [List.getElem?_append_left (show buf.length - 1 < buf.length by omega)] using h3

/-! ### The dispatches of `handle_event` as the routing describes them -/

theorem routed_zero (a : Args) (i : InotifyEvent) (h : i.mask = 0) :
    catchAllCalls a i ++ typedCalls a i = [] := by
  have h1 : catchAllCalls a i = [] := by
    unfold catchAllCalls
    split
    · simp [h, kinds]
    · rfl
  have h2 : typedCalls a i = [] := by
    simp [typedCalls, typedOrder, bucketHit, h]
  rw [h1, h2]
  rfl

theorem handle_event_calls_all (a : Args) (i : InotifyEvent) (p : Proc) :
    (handle_event a i p).calls = p.calls ++ (catchAllCalls a i ++ typedCalls a i) := by
  by_cases h : i.mask = 0
  · rw [handle_event_zero a i p h, routed_zero a i h, List.append_nil]
  · exact handle_event_calls a i p h

theorem handle_event_spawns_all (a : Args) (i : InotifyEvent) (p : Proc) :
    (handle_event a i p).spawns = p.spawns ++
      (catchAllCalls a i ++ typedCalls a i).flatMap (spawnsOf a (eventEnv a i p.env)) := by
  by_cases h : i.mask = 0
  · rw [handle_event_zero a i p h, routed_zero a i h]
    simp
  · exact handle_event_spawns a i p h

theorem mem_catchAllCalls (a : Args) (i : InotifyEvent) (d : Dispatch)
    (h : d ∈ catchAllCalls a i) :
    d.commands = .cmd_all ∧ d.dir = eventDir a i ∧ d.file = eventFile a i ∧
      d.name ∈ eventLabels := by
  unfold catchAllCalls at h
  split at h
  · obtain ⟨k, hk, rfl⟩ := List.mem_map.mp h
    refine ⟨rfl, rfl, rfl, ?_⟩
    have hk' : k ∈ kinds := List.mem_of_mem_filter hk
    have hall : ∀ k ∈ kinds, k.2 ∈ eventLabels := by decide
    exact hall k hk'
  · simp at h

theorem mem_typedCalls (a : Args) (i : InotifyEvent) (d : Dispatch) (h : d ∈ typedCalls a i) :
    ∃ b ∈ typedOrder, d = ⟨bucketLabel b, eventDir a i, eventFile a i, b⟩ := by
  obtain ⟨b, hb, rfl⟩ := List.mem_map.mp h
  exact ⟨b, List.mem_of_mem_filter hb, rfl⟩

theorem routed_filter_all (a : Args) (i : InotifyEvent) :
    (catchAllCalls a i ++ typedCalls a i).filter (fun d => decide (d.commands = .cmd_all))
      = catchAllCalls a i := by
  rw [List.filter_append]
  have h1 : (catchAllCalls a i).filter (fun d => decide (d.commands = .cmd_all))
      = catchAllCalls a i := by
    apply List.filter_eq_self.mpr
    intro d hd
    simp [(mem_catchAllCalls a i d hd).1]
  have h2 : (typedCalls a i).filter (fun d => decide (d.commands = .cmd_all)) = [] := by
    apply List.filter_eq_nil_iff.mpr
    intro d hd
    obtain ⟨b, hb, rfl⟩ := mem_typedCalls a i d hd
    have hne : ∀ b ∈ typedOrder, b ≠ Bucket.cmd_all := by decide
    simpa using hne b hb
  rw [h1, h2, List.append_nil]

theorem routed_filter_typed (a : Args) (i : InotifyEvent) :
    (catchAllCalls a i ++ typedCalls a i).filter (fun d => decide (d.commands ≠ .cmd_all))
      = typedCalls a i := by
  rw [List.filter_append]
  have h1 : (catchAllCalls a i).filter (fun d => decide (d.commands ≠ .cmd_all)) = [] := by
    apply List.filter_eq_nil_iff.mpr
    intro d hd
    simp [(mem_catchAllCalls a i d hd).1]
  have h2 : (typedCalls a i).filter (fun d => decide (d.commands ≠ .cmd_all))
      = typedCalls a i := by
    apply List.filter_eq_self.mpr
    intro d hd
    obtain ⟨b, hb, rfl⟩ := mem_typedCalls a i d hd
    have hne : ∀ b ∈ typedOrder, b ≠ Bucket.cmd_all := by decide
    simpa using hne b hb
  rw [h1, h2, List.nil_append]

theorem routed_filter_bucket (a : Args) (i : InotifyEvent) (b : Bucket) (hb : b ≠ .cmd_all) :
    (catchAllCalls a i ++ typedCalls a i).filter (fun d => decide (d.commands = b))
      = if (a.list b).length ≠ 0 ∧ bucketHit i.mask b = true then
          [⟨bucketLabel b, eventDir a i, eventFile a i, b⟩] else [] := by
  rw [List.filter_append]
  have h1 : (catchAllCalls a i).filter (fun d => decide (d.commands = b)) = [] := by
    apply List.filter_eq_nil_iff.mpr
    intro d hd
    simp [(mem_catchAllCalls a i d hd).1, Ne.symm hb]
  rw [h1, List.nil_append]
  unfold typedCalls
  rw [List.filter_map, List.filter_filter]
  cases b with
  | cmd_all => exact absurd rfl hb
  | cmd_access => by_cases h : a.cmd_access.length ≠ 0 ∧ bucketHit i.mask .cmd_access = true <;>
      simp [typedOrder, List.filter_cons, Args.list, h] <;> split_ifs <;> simp_all
  | cmd_modify => by_cases h : a.cmd_modify.length ≠ 0 ∧ bucketHit i.mask .cmd_modify = true <;>
      simp [typedOrder, List.filter_cons, Args.list, h] <;> split_ifs <;> simp_all
  | cmd_open => by_cases h : a.cmd_open.length ≠ 0 ∧ bucketHit i.mask .cmd_open = true <;>
      simp [typedOrder, List.filter_cons, Args.list, h] <;> split_ifs <;> simp_all
  | cmd_create => by_cases h : a.cmd_create.length ≠ 0 ∧ bucketHit i.mask .cmd_create = true <;>
      simp [typedOrder, List.filter_cons, Args.list, h] <;> split_ifs <;> simp_all
  | cmd_close => by_cases h : a.cmd_close.length ≠ 0 ∧ bucketHit i.mask .cmd_close = true <;>
      simp [typedOrder, List.filter_cons, Args.list, h] <;> split_ifs <;> simp_all
  | cmd_delete => by_cases h : a.cmd_delete.length ≠ 0 ∧ bucketHit i.mask .cmd_delete = true <;>
      simp [typedOrder, List.filter_cons, Args.list, h] <;> split_ifs <;> simp_all
  | cmd_attrib => by_cases h : a.cmd_attrib.length ≠ 0 ∧ bucketHit i.mask .cmd_attrib = true <;>
      simp [typedOrder, List.filter_cons, Args.list, h] <;> split_ifs <;> simp_all

theorem and_two_pow_ne_zero (m b : Nat) : (m &&& 2 ^ b ≠ 0) ↔ m.testBit b = true := by
  rw [Nat.and_two_pow]
  cases h : m.testBit b <;> simp [Nat.pos_pow_of_pos]

theorem kinds_count (mask : Nat) :
    (kinds.filter (fun k => decide (mask &&& k.1 ≠ 0))).length = knownBitsSet mask := by
  have hk : kinds.map (fun k => k.1) = kindBits.map (fun b => 2 ^ b) := by decide
  have h1 : (kinds.filter (fun k => decide (mask &&& k.1 ≠ 0))).length
      = (kinds.map (fun k => k.1)).countP (fun v => decide (mask &&& v ≠ 0)) := by
    rw [List.countP_map, List.countP_eq_length_filter]
    rfl
  have h2 : (kindBits.map (fun b => 2 ^ b)).countP (fun v => decide (mask &&& v ≠ 0))
      = kindBits.countP (fun b => mask.testBit b) := by
    rw [List.countP_map]
    apply List.countP_congr
    intro b _
    simp [and_two_pow_ne_zero]
  have h3 : (List.range 32).filter (fun b => IN_KNOWN.testBit b)
      = [0, 1, 2, 3, 4, 5, 6, 7, 8, 9, 10, 11, 13, 14, 15, 30] := by decide
  have h4 : List.Perm [0, 1, 2, 3, 4, 5, 6, 7, 8, 9, 10, 11, 13, 14, 15, 30] kindBits := by
    decide
  rw [h1, hk, h2, knownBitsSet, ← List.countP_filter, h3]
  exact (List.Perm.countP_eq _ h4).symm

/-! ### The environment after `handle_event` -/

theorem unsetenv_cons_pos (k : String) (x : String × String) (e : Env) (h : x.1 = k) :
    unsetenv k (x :: e) = unsetenv k e := by
  simp [unsetenv, List.filter_cons, h]

theorem unsetenv_cons_neg (k : String) (x : String × String) (e : Env) (h : x.1 ≠ k) :
    unsetenv k (x :: e) = x :: unsetenv k e := by
  simp [unsetenv, List.filter_cons, h]

theorem getenv_cons_pos (k : String) (x : String × String) (e : Env) (h : x.1 = k) :
    getenv (x :: e) k = some x.2 := by
  simp [getenv, List.find?_cons, h]

theorem getenv_cons_neg (k : String) (x : String × String) (e : Env) (h : x.1 ≠ k) :
    getenv (x :: e) k = getenv e k := by
  simp [getenv, List.find?_cons, h]

theorem getenv_unsetenv_self (k : String) (e : Env) : getenv (unsetenv k e) k = none := by
  induction e with
  | nil => rfl
  | cons x e ih =>
    by_cases hx : x.1 = k
    · rw [unsetenv_cons_pos k x e hx, ih]
    · rw [unsetenv_cons_neg k x e hx, getenv_cons_neg k x _ hx, ih]

theorem getenv_unsetenv_ne (k k' : String) (e : Env) (h : k ≠ k') :
    getenv (unsetenv k' e) k = getenv e k := by
  induction e with
  | nil => rfl
  | cons x e ih =>
    by_cases hx : x.1 = k'
    · have hxk : x.1 ≠ k := fun hk => h (hk.symm.trans hx)
      rw [unsetenv_cons_pos k' x e hx, getenv_cons_neg k x e hxk, ih]
    · rw [unsetenv_cons_neg k' x e hx]
      by_cases hxk : x.1 = k
      · rw [getenv_cons_pos k x _ hxk, getenv_cons_pos k x _ hxk]
      · rw [getenv_cons_neg k x _ hxk, getenv_cons_neg k x _ hxk, ih]

theorem getenv_setenv_ne (k k' v : String) (e : Env) (h : k ≠ k') :
    getenv (setenv k' v e) k = getenv e k := by
  rw [setenv, getenv_cons_neg k _ _ (Ne.symm h), getenv_unsetenv_ne k k' e h]

theorem getenv_eventEnv_file (a : Args) (i : InotifyEvent) (env : Env) :
    getenv (eventEnv a i env) "file" = eventFile a i := by
  have hne : ("file" : String) ≠ "dir" := by decide
  unfold eventEnv
  cases eventFile a i <;> cases eventDir a i <;>
    simp [getenv_setenv, getenv_setenv_ne _ _ _ _ hne, getenv_unsetenv_self,
      getenv_unsetenv_ne _ _ _ hne]

theorem getenv_eventEnv_dir (a : Args) (i : InotifyEvent) (env : Env) :
    getenv (eventEnv a i env) "dir" = eventDir a i := by
  unfold eventEnv
  cases eventDir a i <;> simp [getenv_setenv, getenv_unsetenv_self]

theorem handle_event_env (a : Args) (i : InotifyEvent) (p : Proc) (hmask : i.mask ≠ 0) :
    unsetenv "event" (handle_event a i p).env = unsetenv "event" (eventEnv a i p.env) := by
  unfold handle_event
  rw [if_neg hmask]
  by_cases hall : a.cmd_all.length ≠ 0
  · simp only [if_pos hall, env_step, eventEnv, eventFile, eventDir]
  · simp only [if_neg hall, env_step, eventEnv, eventFile, eventDir]

theorem handle_event_getenv (a : Args) (i : InotifyEvent) (p : Proc) (hmask : i.mask ≠ 0) :
    getenv (handle_event a i p).env "file" = eventFile a i ∧
      getenv (handle_event a i p).env "dir" = eventDir a i := by
  have h := handle_event_env a i p hmask
  have hf : ("file" : String) ≠ "event" := by decide
  have hd : ("dir" : String) ≠ "event" := by decide
  constructor
  · rw [← getenv_unsetenv_ne _ _ _ hf, h, getenv_unsetenv_ne _ _ _ hf, getenv_eventEnv_file]
  · rw [← getenv_unsetenv_ne _ _ _ hd, h, getenv_unsetenv_ne _ _ _ hd, getenv_eventEnv_dir]

theorem spawn_label (a : Args) (i : InotifyEvent) (e1 : Env) (s : Spawn)
    (h : s ∈ (catchAllCalls a i ++ typedCalls a i).flatMap (spawnsOf a e1)) :
    ∃ label : String, getenv s.env "event" = some label ∧
      (label ∈ eventLabels ∨ (label = "CLOSE" ∧ s.list = .cmd_close)) := by
  obtain ⟨d, hd, hs⟩ := List.mem_flatMap.mp h
  obtain ⟨c, _, rfl⟩ := List.mem_map.mp hs
  refine ⟨d.name, getenv_setenv _ _ _, ?_⟩
  rcases List.mem_append.mp hd with hd | hd
  · exact Or.inl (mem_catchAllCalls a i d hd).2.2.2
  · obtain ⟨b, hb, rfl⟩ := mem_typedCalls a i d hd
    have hall : ∀ b ∈ typedOrder,
        bucketLabel b ∈ eventLabels ∨ (bucketLabel b = "CLOSE" ∧ b = Bucket.cmd_close) := by
      decide
    exact hall b hb

/-! ## The claims -/

/-- C1: for every captured buffer that is empty or ends in a newline, and
whatever follows it in memory, the buffer is in exactly one way a sequence of
newline-free lines each followed by a newline, and the line splitter returns
with the cursor at the end of the buffer after calling `print_output_line`
exactly once for each non-empty line, in buffer order, with exactly the bytes
and the length of that line; an empty line gives no call. -/
theorem run_event_split_complete_lines (buf tail : List Nat)
    (h : buf = [] ∨ buf.getLast? = some NL) :
    ∃ ls : List (List Nat), (∀ l ∈ ls, NL ∉ l) ∧ joinLines ls = buf ∧
      (∀ ls' : List (List Nat), (∀ l ∈ ls', NL ∉ l) → joinLines ls' = buf → ls' = ls) ∧
      ∃ calls : List OutputCall,
        run_event_split (buf ++ tail) buf.length = some (calls, buf.length) ∧
        calls = expectedCalls 0 ls ∧
        calls.map (lineBytes (buf ++ tail)) = ls.filter (fun l => decide (l ≠ [])) ∧
        calls.map (fun c => c.len) = (ls.filter (fun l => decide (l ≠ []))).map List.length := by
  obtain ⟨ls, hls, hj⟩ := joinLines_exists buf h
  refine ⟨ls, hls, hj, fun ls' h1 h2 => joinLines_inj ls' ls h1 hls (h2.trans hj.symm),
    expectedCalls 0 ls, ?_, rfl, ?_, expectedCalls_len 0 ls⟩
  · have := scanLoop_joinLines ls hls tail 0 []
    simpa [run_event_split, hj] using this
  · have := lineBytes_expectedCalls [] ls tail
    simpa [hj] using this

/-- C1, on the buffer `a\nb\nc\n`: exactly the three lines `a`, `b`, `c`
are passed, in that order. -/
theorem run_event_split_complete_lines_witness :
    (bytes "a\nb\nc\n" = [] ∨ (bytes "a\nb\nc\n").getLast? = some NL) ∧
    ∃ calls : List OutputCall,
      run_event_split (bytes "a\nb\nc\n") 6 = some (calls, 6) ∧
      calls.map (lineBytes (bytes "a\nb\nc\n")) = [bytes "a", bytes "b", bytes "c"] ∧
      calls.map (fun c => c.len) = [1, 1, 1] := by
  refine ⟨Or.inr (by decide), ?_⟩
  obtain ⟨ls, _, _, huniq, calls, hrun, _, hb, hl⟩ :=
    run_event_split_complete_lines (bytes "a\nb\nc\n") [] (Or.inr (by decide))
  have hls : [bytes "a", bytes "b", bytes "c"] = ls :=
    huniq [bytes "a", bytes "b", bytes "c"] (by decide) (by decide)
  subst hls
  refine ⟨calls, ?_, ?_, ?_⟩
  · simpa using hrun
  · simpa using hb
  · simpa using hl

/-- C2, at the failing input: on the captured output `a\nb\nc` (five bytes,
no final newline) the scan does not stop at the end of the buffer. When the
byte after the buffer is a newline it reads that byte, ends with the cursor
at offset six and passes the unterminated line `c` as a third line; when the
memory after the buffer holds `XY\n` it passes `cXY`; when the modelled memory
ends with the buffer the read at offset five is outside it. -/
theorem run_event_split_unterminated_overread :
    run_event_split (bytes "a\nb\nc" ++ bytes "\n") 5 = some ([⟨0, 1⟩, ⟨2, 1⟩, ⟨4, 1⟩], 6) ∧
    lineBytes (bytes "a\nb\nc" ++ bytes "\n") ⟨4, 1⟩ = bytes "c" ∧
    run_event_split (bytes "a\nb\nc" ++ bytes "XY\n") 5
      = some ([⟨0, 1⟩, ⟨2, 1⟩, ⟨4, 3⟩], 8) ∧
    lineBytes (bytes "a\nb\nc" ++ bytes "XY\n") ⟨4, 3⟩ = bytes "cXY" ∧
    run_event_split (bytes "a\nb\nc") 5 = none := by
  decide

/-- C3: for every event record with a non-zero mask, `handle_event` resolves
the dispatch context from the name length: with a name, the directory is
`files[wd - 1]` and the file is the name of the record; without one, the
directory is null and the file is `files[wd - 1]`. Every `run_event` call made
for the record carries exactly this pair, and the environment entries `file`
and `dir` hold it afterwards (an entry is unset for a null pointer). -/
theorem handle_event_dispatch_context (a : Args) (i : InotifyEvent) (p : Proc)
    (hmask : i.mask ≠ 0) :
    ∃ ds : List Dispatch, (handle_event a i p).calls = p.calls ++ ds ∧
      (∀ d ∈ ds,
        d.dir = (if i.len ≠ 0 then a.files (i.wd - 1) else none) ∧
        d.file = (if i.len ≠ 0 then some (cstr i.name) else a.files (i.wd - 1))) ∧
      getenv (handle_event a i p).env "dir"
        = (if i.len ≠ 0 then a.files (i.wd - 1) else none) ∧
      getenv (handle_event a i p).env "file"
        = (if i.len ≠ 0 then some (cstr i.name) else a.files (i.wd - 1)) := by
  refine ⟨catchAllCalls a i ++ typedCalls a i, handle_event_calls_all a i p, ?_,
    (handle_event_getenv a i p hmask).2, (handle_event_getenv a i p hmask).1⟩
  intro d hd
  rcases List.mem_append.mp hd with hd | hd
  · exact ⟨(mem_catchAllCalls a i d hd).2.1, (mem_catchAllCalls a i d hd).2.2.1⟩
  · obtain ⟨b, _, rfl⟩ := mem_typedCalls a i d hd
    exact ⟨rfl, rfl⟩

/-- C3, on the two examples: a MODIFY event without name on the watch of
`/tmp/f` is dispatched once with a null directory and the file `/tmp/f`; a
CREATE event with the name `x.txt` on the watch of `/tmp/dir` is dispatched
once with the directory `/tmp/dir` and the file `x.txt`. -/
theorem handle_event_dispatch_context_witness :
    (eventModify.mask ≠ 0 ∧ eventCreate.mask ≠ 0) ∧
    (handle_event argsModify eventModify proc0).calls
      = [⟨"MODIFY", none, some "/tmp/f", .cmd_modify⟩] ∧
    (handle_event argsCreate eventCreate proc0).calls
      = [⟨"CREATE", some "/tmp/dir", some "x.txt", .cmd_create⟩] ∧
    ∃ ds : List Dispatch, (handle_event argsCreate eventCreate proc0).calls = proc0.calls ++ ds ∧
      (∀ d ∈ ds, d.dir = some "/tmp/dir" ∧ d.file = some "x.txt") ∧
      getenv (handle_event argsCreate eventCreate proc0).env "dir" = some "/tmp/dir" ∧
      getenv (handle_event argsCreate eventCreate proc0).env "file" = some "x.txt" := by
  refine ⟨by decide, by decide, by decide, ?_⟩
  obtain ⟨ds, h1, h2, h3, h4⟩ :=
    handle_event_dispatch_context argsCreate eventCreate proc0 (by decide)
  have e1 : (if eventCreate.len ≠ 0 then argsCreate.files (eventCreate.wd - 1) else none)
      = some "/tmp/dir" := by decide
  have e2 : (if eventCreate.len ≠ 0 then some (cstr eventCreate.name)
      else argsCreate.files (eventCreate.wd - 1)) = some "x.txt" := by decide
  rw [e1] at h2 h3
  rw [e2] at h2 h4
  exact ⟨ds, h1, h2, h3, h4⟩

/-- C4: for every event record, the `run_event` calls that `handle_event`
makes on the catch-all list are, when that list is non-empty, exactly one per
known event kind whose bit is set in the mask, in the order of the sixteen
kinds and each with the label of its kind, so their number is the number of
known-kind bits set in the mask; when the catch-all list is empty there is
none. -/
theorem handle_event_catch_all_dispatches (a : Args) (i : InotifyEvent) (p : Proc) :
    ∃ ds : List Dispatch, (handle_event a i p).calls = p.calls ++ ds ∧
      ds.filter (fun d => decide (d.commands = .cmd_all))
        = (if a.cmd_all.length ≠ 0 then
            (kinds.filter (fun k => decide (i.mask &&& k.1 ≠ 0))).map
              (fun k => ⟨k.2, eventDir a i, eventFile a i, .cmd_all⟩)
          else []) ∧
      (ds.filter (fun d => decide (d.commands = .cmd_all))).length
        = (if a.cmd_all.length ≠ 0 then knownBitsSet i.mask else 0) := by
  refine ⟨catchAllCalls a i ++ typedCalls a i, handle_event_calls_all a i p, ?_, ?_⟩
  · rw [routed_filter_all]
    rfl
  · rw [routed_filter_all]
    unfold catchAllCalls
    split
    · rw [List.length_map, kinds_count]
    · rfl

/-- C4, on a mask with exactly the CLOSE_NOWRITE and ISDIR bits and a
non-empty catch-all list: exactly two catch-all dispatches, labelled
CLOSE_NOWRITE and ISDIR. -/
theorem handle_event_catch_all_dispatches_witness :
    ∃ ds : List Dispatch,
      (handle_event argsAllClose eventCloseDir proc0).calls = proc0.calls ++ ds ∧
      ds.filter (fun d => decide (d.commands = .cmd_all))
        = [⟨"CLOSE_NOWRITE", none, some "/tmp/f", .cmd_all⟩,
           ⟨"ISDIR", none, some "/tmp/f", .cmd_all⟩] ∧
      (ds.filter (fun d => decide (d.commands = .cmd_all))).length = 2 := by
  obtain ⟨ds, h1, h2, h3⟩ := handle_event_catch_all_dispatches argsAllClose eventCloseDir proc0
  refine ⟨ds, h1, ?_, ?_⟩
  · rw [h2]
    decide
  · rw [h3]
    decide

/-- C5: for every event record, each of the seven typed buckets is
dispatched by `handle_event` exactly once when its command list is non-empty
and the mask contains its kind (for the CLOSE bucket either close kind, and
still once when both are set) and not at all otherwise, with the canonical
name of the bucket as label; the typed dispatches come in the order ACCESS,
MODIFY, CLOSE, OPEN, CREATE, DELETE, ATTRIB, and they are the same whatever
the catch-all list is. -/
theorem handle_event_typed_dispatches (a : Args) (i : InotifyEvent) (p : Proc) :
    ∃ ds : List Dispatch, (handle_event a i p).calls = p.calls ++ ds ∧
      (∀ b : Bucket, b ≠ .cmd_all →
        ds.filter (fun d => decide (d.commands = b))
          = if (a.list b).length ≠ 0 ∧ bucketHit i.mask b = true then
              [⟨bucketLabel b, eventDir a i, eventFile a i, b⟩] else []) ∧
      ds.filter (fun d => decide (d.commands ≠ .cmd_all))
        = (typedOrder.filter
            (fun b => decide ((a.list b).length ≠ 0) && bucketHit i.mask b)).map
            (fun b => ⟨bucketLabel b, eventDir a i, eventFile a i, b⟩) ∧
      (∀ cmds : List String, ∃ ds' : List Dispatch,
        (handle_event { a with cmd_all := cmds } i p).calls = p.calls ++ ds' ∧
        ds'.filter (fun d => decide (d.commands ≠ .cmd_all))
          = ds.filter (fun d => decide (d.commands ≠ .cmd_all))) := by
  refine ⟨catchAllCalls a i ++ typedCalls a i, handle_event_calls_all a i p,
    fun b hb => routed_filter_bucket a i b hb, ?_, ?_⟩
  · rw [routed_filter_typed]
    rfl
  · intro cmds
    refine ⟨_, handle_event_calls_all { a with cmd_all := cmds } i p, ?_⟩
    rw [routed_filter_typed, routed_filter_typed]
    rfl

/-- C5, on an event with both close bits, a catch-all command and a CLOSE
command: the CLOSE bucket is dispatched exactly once, labelled CLOSE, the
other typed buckets not at all, with or without the catch-all command. -/
theorem handle_event_typed_dispatches_witness :
    ∃ ds : List Dispatch,
      (handle_event argsAllClose eventCloseBoth proc0).calls = proc0.calls ++ ds ∧
      ds.filter (fun d => decide (d.commands = .cmd_close))
        = [⟨"CLOSE", none, some "/tmp/f", .cmd_close⟩] ∧
      ds.filter (fun d => decide (d.commands ≠ .cmd_all))
        = [⟨"CLOSE", none, some "/tmp/f", .cmd_close⟩] ∧
      (handle_event argsClose eventCloseBoth proc0).calls
        = [⟨"CLOSE", none, some "/tmp/f", .cmd_close⟩] := by
  obtain ⟨ds, h1, h2, h3, _⟩ := handle_event_typed_dispatches argsAllClose eventCloseBoth proc0
  refine ⟨ds, h1, ?_, ?_, by decide⟩
  · rw [h2 .cmd_close (by decide)]
    decide
  · rw [h3]
    decide

/-- C6: for every buffer that is exactly the concatenation of well-formed
records, whatever their name bytes and whatever follows the buffer in memory,
the carving loop returns after calling `handle_event` once on each record, in
buffer order, each at the offset of the record, the cursor advancing by the
header size plus the declared name length per record; it stops with the
cursor exactly at the end of the buffer, and the consumed sizes sum to the
buffer length. -/
theorem carve_concatenated_records (a : Args) (rs : List InotifyEvent) (tail : List Nat)
    (p : Proc) (hwf : ∀ r ∈ rs, r.wf) :
    carve a (encodeAll rs ++ tail) (encodeAll rs).length p
        = some ⟨rs.foldl (fun q r => handle_event a r q) p, layout 0 rs,
            (encodeAll rs).length⟩ ∧
      (layout 0 rs).map Prod.snd = rs ∧
      (layout 0 rs).length = rs.length ∧
      (encodeAll rs).length = (rs.map (fun r => HEADER + r.len)).sum := by
  refine ⟨?_, layout_snd 0 rs, ?_, encodeAll_length rs hwf⟩
  · have h := carveLoop_encodeAll a rs hwf [] tail p []
    simpa [carve] using h
  · rw [← List.length_map (layout 0 rs) Prod.snd, layout_snd]

/-- C6, on a buffer of three records (a CREATE record with a sixteen-byte
name, a zero-mask record with four arbitrary name bytes, a MODIFY record
without name) followed by three stale bytes: three calls at the offsets 0,
32 and 52, and the cursor ends at 68, the length of the buffer. -/
theorem carve_concatenated_records_witness :
    (∀ r ∈ [eventCreate, eventZero, eventModify], r.wf) ∧
    (encodeAll [eventCreate, eventZero, eventModify]).length = 68 ∧
    ∃ c : Carved,
      carve argsCreate (encodeAll [eventCreate, eventZero, eventModify] ++ [1, 2, 3])
        (encodeAll [eventCreate, eventZero, eventModify]).length proc0 = some c ∧
      c.handled = [(0, eventCreate), (32, eventZero), (52, eventModify)] ∧ c.ptr = 68 := by
  refine ⟨by decide, by decide, ?_⟩
  have h := (carve_concatenated_records argsCreate [eventCreate, eventZero, eventModify]
    [1, 2, 3] proc0 (by decide)).1
  exact ⟨_, h, by decide, by decide⟩

/-- C7: a record whose mask is 0 makes `handle_event` return the state of
the process unchanged (no `run_event` call on any list, no spawn, the
environment as it was), and in the carving loop the cursor still advances
past it: on a buffer of well-formed records that contains a zero-mask record,
all records are visited up to the end of the buffer, and the resulting state
is the one obtained by handling only the other records in order, which is
also the result of carving the buffer without the zero-mask record. -/
theorem zero_mask_record_skipped (a : Args) (pre post : List InotifyEvent) (z : InotifyEvent)
    (tail : List Nat) (p : Proc) (hz : z.mask = 0) (hzwf : z.wf) (hpre : ∀ r ∈ pre, r.wf)
    (hpost : ∀ r ∈ post, r.wf) :
    (∀ q : Proc, handle_event a z q = q) ∧
    ∃ c c' : Carved,
      carve a (encodeAll (pre ++ z :: post) ++ tail) (encodeAll (pre ++ z :: post)).length p
        = some c ∧
      c.ptr = (encodeAll (pre ++ z :: post)).length ∧
      c.handled.map Prod.snd = pre ++ z :: post ∧
      c.proc = (pre ++ post).foldl (fun q r => handle_event a r q) p ∧
      carve a (encodeAll (pre ++ post) ++ tail) (encodeAll (pre ++ post)).length p = some c' ∧
      c'.proc = c.proc := by
  have hall : ∀ r ∈ pre ++ z :: post, r.wf := by
    intro r hr
    rcases List.mem_append.mp hr with h | h
    · exact hpre r h
    · rcases List.mem_cons.mp h with h | h
      · rw [h]; exact hzwf
      · exact hpost r h
  have hrest : ∀ r ∈ pre ++ post, r.wf := by
    intro r hr
    rcases List.mem_append.mp hr with h | h
    · exact hpre r h
    · exact hpost r h
  have h1 := carveLoop_encodeAll a (pre ++ z :: post) hall [] tail p []
  have h2 := carveLoop_encodeAll a (pre ++ post) hrest [] tail p []
  simp only [List.nil_append, List.length_nil, Nat.zero_add] at h1 h2
  refine ⟨fun q => handle_event_zero a z q hz, _, _, h1, rfl, layout_snd 0 _, ?_, h2, ?_⟩
  · simp only [List.foldl_append, List.foldl_cons, handle_event_zero a z _ hz]
  · simp only [List.foldl_append, List.foldl_cons, handle_event_zero a z _ hz]

/-- C7, on the buffer of a CREATE record, a zero-mask record and a MODIFY
record: the zero-mask record changes nothing, and the state after the buffer
is the state after the CREATE and MODIFY records alone. -/
theorem zero_mask_record_skipped_witness :
    eventZero.mask = 0 ∧
    handle_event argsCreate eventZero proc0 = proc0 ∧
    ∃ c : Carved,
      carve argsCreate (encodeAll ([eventCreate] ++ eventZero :: [eventModify]) ++ [])
        (encodeAll ([eventCreate] ++ eventZero :: [eventModify])).length proc0 = some c ∧
      c.ptr = 68 ∧
      c.proc = handle_event argsCreate eventModify (handle_event argsCreate eventCreate proc0) := by
  obtain ⟨h0, c, _, h1, h2, _, h4, _, _⟩ :=
    zero_mask_record_skipped argsCreate [eventCreate] [eventModify] eventZero [] proc0
      (by decide) (by decide) (by decide) (by decide)
  refine ⟨by decide, h0 proc0, c, h1, ?_, ?_⟩
  · rw [h2]
    decide
  · rw [h4]
    rfl

/-- C8: for every list of non-null paths (fewer than 2^31, as `argc` is an
`int`) and every result of `inotify_add_watch` per call (any `int`), if the
registration loop completes without a fatal error then the descriptor
returned for the path at index i was exactly i + 1: the descriptors are
1..N in registration order, one call per path, and for every k in 1..N the
lookup `files[k - 1]` of `handle_event` is the path of the k-th call, whose
descriptor is k. Conversely, every call that returned a descriptor other than
its index plus one is the last call made, and the loop ended there in a fatal
error. -/
theorem register_watches_identifiers (a : Args) (sys : Facility)
    (hsmall : a.files_len < 2147483648)
    (hnn : ∀ j : Nat, j < a.files_len → a.files j ≠ none)
    (hint : ∀ (j : Nat) (f : String), j < a.files_len →
      -2147483648 ≤ sys.inotify_add_watch j f ∧ sys.inotify_add_watch j f < 2147483648) :
    ((register_watches a sys).fatal = none →
      (register_watches a sys).watches.map (fun w => w.wd)
        = (List.range a.files_len).map (fun j : Nat => (j : Int) + 1) ∧
      (register_watches a sys).watches.map (fun w => w.index) = List.range a.files_len ∧
      ∀ k : Nat, 1 ≤ k → k ≤ a.files_len →
        ∃ w : Watch, (register_watches a sys).watches[k - 1]? = some w ∧
          w.wd = (k : Int) ∧ a.files ((k : Int) - 1) = some w.path) ∧
    (∀ w ∈ (register_watches a sys).watches, w.wd ≠ (w.index : Int) + 1 →
      ((register_watches a sys).fatal = some (.add_watch w.index) ∨
        (register_watches a sys).fatal = some (.invalid_wd w.index)) ∧
      (register_watches a sys).watches.getLast? = some w) := by
  constructor
  · intro hok
    unfold register_watches at hok ⊢
    obtain ⟨hgood, hidx⟩ := regLoop_ok a sys a.files_len 0 [] (by omega)
      (fun j _ h => hnn j (by omega)) (fun j f h => hint j f (by omega))
      (by simp) (by simp) hok
    rw [Nat.zero_add] at hidx
    have hwd : (regLoop a sys a.files_len 0 []).watches.map (fun w => w.wd)
        = (List.range a.files_len).map (fun j : Nat => (j : Int) + 1) := by
      rw [← hidx, List.map_map]
      apply List.map_congr_left
      intro w hw
      exact (hgood w hw).1
    refine ⟨hwd, hidx, ?_⟩
    intro k hk1 hk2
    have hlen : (regLoop a sys a.files_len 0 []).watches.length = a.files_len := by
      have := congrArg List.length hidx
      simpa using this
    have hlt : k - 1 < (regLoop a sys a.files_len 0 []).watches.length := by omega
    refine ⟨(regLoop a sys a.files_len 0 []).watches[k - 1], List.getElem?_eq_getElem hlt, ?_⟩
    have hmem : (regLoop a sys a.files_len 0 []).watches[k - 1] ∈ (regLoop a sys a.files_len 0 []).watches :=
      List.getElem_mem hlt
    have hi : ((regLoop a sys a.files_len 0 []).watches[k - 1]).index = k - 1 := by
      have h1 : ((regLoop a sys a.files_len 0 []).watches.map (fun w => w.index))[k - 1]?
          = (List.range a.files_len)[k - 1]? := by rw [hidx]
      rw [List.getElem?_map, List.getElem?_eq_getElem hlt,
        List.getElem?_range (by omega)] at h1
      simpa using h1
    obtain ⟨g1, g2⟩ := hgood _ hmem
    rw [hi] at g1 g2
    have hk : ((k - 1 : Nat) : Int) = (k : Int) - 1 := by omega
    rw [hk] at g1 g2
    exact ⟨by omega, g2⟩
  · exact regLoop_bad a sys a.files_len 0 [] (by omega) (fun j f h => hint j f (by omega))
      (by simp)

/-- C8, on two paths with the descriptors handed out in sequence: the loop
completes, the descriptors are 1 and 2, and `files[0]`, `files[1]` are the
paths registered first and second. -/
theorem register_watches_identifiers_witness :
    (register_watches argsTwo sysSequential).fatal = none ∧
    (register_watches argsTwo sysSequential).watches.map (fun w => w.wd) = [1, 2] ∧
    (register_watches argsTwo sysSequential).watches.map (fun w => w.path)
      = ["/tmp/a", "/tmp/b"] ∧
    ∃ w : Watch, (register_watches argsTwo sysSequential).watches[2 - 1]? = some w ∧
      w.wd = 2 ∧ argsTwo.files ((2 : Int) - 1) = some w.path := by
  have hok : (register_watches argsTwo sysSequential).fatal = none := by decide
  have h := register_watches_identifiers argsTwo sysSequential (by decide)
    (by
      intro j hj
      have hj2 : j < 2 := hj
      interval_cases j <;> decide)
    (by
      intro j f _
      simp only [sysSequential]
      split <;> omega)
  obtain ⟨h1, _, h3⟩ := h.1 hok
  refine ⟨hok, ?_, by decide, ?_⟩
  · rw [h1]
    decide
  · obtain ⟨w, hw1, hw2, hw3⟩ := h3 2 (by decide) (by decide)
    exact ⟨w, hw1, by simpa using hw2, by simpa using hw3⟩

/-- C9 as stated fails: with one command in the CLOSE bucket, a CLOSE_WRITE
event spawns that command with `event` set to `CLOSE`, which is none of the
sixteen event-kind labels. -/
theorem spawn_event_label_counterexample :
    (handle_event argsClose eventCloseWrite proc0).spawns
      = [⟨"sync", .cmd_close, [("event", "CLOSE"), ("file", "/tmp/f")]⟩] ∧
    getenv [("event", "CLOSE"), ("file", "/tmp/f")] "event" = some "CLOSE" ∧
    "CLOSE" ∉ eventLabels := by
  decide

/-- C9, amended: for every event record and every configuration of command
lists, each command that `handle_event` spawns sees the environment entry
`event` set, and its value is one of the sixteen event-kind labels, or is
`CLOSE` for a command of the typed CLOSE bucket. -/
theorem handle_event_spawn_event_label (a : Args) (i : InotifyEvent) (p : Proc) :
    ∃ ss : List Spawn, (handle_event a i p).spawns = p.spawns ++ ss ∧
      ∀ s ∈ ss, ∃ label : String, getenv s.env "event" = some label ∧
        (label ∈ eventLabels ∨ (label = "CLOSE" ∧ s.list = .cmd_close)) :=
  ⟨_, handle_event_spawns_all a i p, fun s hs => spawn_label a i _ s hs⟩

/-- C9 amended, on an event with both close bits, a catch-all command and a
CLOSE command: three spawns, with `event` set to CLOSE_NOWRITE, CLOSE_WRITE
and CLOSE. -/
theorem handle_event_spawn_event_label_witness :
    ∃ ss : List Spawn,
      (handle_event argsAllClose eventCloseBoth proc0).spawns = proc0.spawns ++ ss ∧
      ss.map (fun s => getenv s.env "event")
        = [some "CLOSE_NOWRITE", some "CLOSE_WRITE", some "CLOSE"] ∧
      ∀ s ∈ ss, ∃ label : String, getenv s.env "event" = some label ∧
        (label ∈ eventLabels ∨ (label = "CLOSE" ∧ s.list = .cmd_close)) := by
  obtain ⟨ss, h1, h2⟩ := handle_event_spawn_event_label argsAllClose eventCloseBoth proc0
  refine ⟨ss, h1, ?_, h2⟩
  have h3 : (handle_event argsAllClose eventCloseBoth proc0).spawns
      = proc0.spawns ++ [⟨"date", .cmd_all, [("event", "CLOSE_NOWRITE"), ("file", "/tmp/f")]⟩,
          ⟨"date", .cmd_all, [("event", "CLOSE_WRITE"), ("file", "/tmp/f")]⟩,
          ⟨"sync", .cmd_close, [("event", "CLOSE"), ("file", "/tmp/f")]⟩] := by decide
  rw [h3] at h1
  rw [← List.append_cancel_left h1]
  decide

end Argos
